import Mathlib

/-!
Verification development for the oxc-walker repository.

The embedding covers:
* the scope tracker (src/scope-tracker.ts): scope frames keyed by
  hierarchical strings, declaration maps, freeze/replay, lookups;
* the synchronous walker (src/walker/sync.ts together with the walker
  base class): enter/leave callbacks, skip/remove/replace directives,
  array splicing on removal, replace-after-remove insertion;
* the language inference of parseAndWalk (src/walk.ts, LANG_RE).

JavaScript strings are modelled as `List Char`, JS `Map`s as association
lists, and JS objects holding AST nodes as a generic tagged-tree type.
-/

namespace OxcWalker

/-! ## Association-list model of JS `Map` -/

def mapGet {κ α : Type} [DecidableEq κ] (m : List (κ × α)) (k : κ) : Option α :=
  (m.find? (fun e => decide (e.1 = k))).map (·.2)

def mapSet {κ α : Type} [DecidableEq κ] (m : List (κ × α)) (k : κ) (v : α) : List (κ × α) :=
  match m with
  | [] => [(k, v)]
  | (k', v') :: rest => if k' = k then (k, v) :: rest else (k', v') :: mapSet rest k v

def mapDelete {κ α : Type} [DecidableEq κ] (m : List (κ × α)) (k : κ) : List (κ × α) :=
  m.filter (fun e => decide (e.1 ≠ k))

/-! ## Scope keys

Scope frame keys are JS strings such as "0-1-2", built by joining the
sibling ordinals with '-' (`scopeIndexStack.slice(0, -1).join('-')`).
-/

/-- JS `Array.prototype.join('-')`. -/
def joinDash : List (List Char) → List Char
  | [] => []
  | [x] => x
  | x :: rest => x ++ '-' :: joinDash rest

/-- JS `String.prototype.split('-')`; `"".split('-')` is `[""]`. -/
def splitDash : List Char → List (List Char)
  | [] => [[]]
  | c :: rest =>
    if c = '-' then [] :: splitDash rest
    else
      match splitDash rest with
      | [] => [[c]]
      | g :: gs => (c :: g) :: gs

/-- Decimal rendering of a sibling ordinal (JS number-to-string). -/
def natKey (n : Nat) : List Char := Nat.toDigits 10 n

/-- JS `Number(segment)` on a decimal segment. -/
def jsNum (s : List Char) : Nat :=
  s.foldl (fun a c => a * 10 + (c.toNat - 48)) 0

/-! ## Scope tracker state (class ScopeTracker) -/

inductive DeclKind where
  | fnParam
  | fn
  | varKind
  | identKind
  | importKind
  | catchParam
deriving DecidableEq

/-- A declaration record (the BaseNode subclasses of scope-tracker.ts):
the kind of binding, the declared name, and the frame key it was
declared in (`readonly scope`). -/
structure STNode where
  kind : DeclKind
  name : String
  scope : List Char
deriving DecidableEq

structure STOptions where
  keepExitedScopes : Bool
deriving DecidableEq

structure ScopeTracker where
  scopeIndexStack : List Nat
  scopeIndexKey : List Char
  scopes : List (List Char × List (String × STNode))
  options : STOptions
  isFrozen : Bool
deriving DecidableEq

def STInit (opts : STOptions) : ScopeTracker :=
  { scopeIndexStack := [], scopeIndexKey := [], scopes := [], options := opts, isFrozen := false }

def updateScopeIndexKey (st : ScopeTracker) : ScopeTracker :=
  { st with scopeIndexKey := joinDash (st.scopeIndexStack.dropLast.map natKey) }

def pushScope (st : ScopeTracker) : ScopeTracker :=
  updateScopeIndexKey { st with scopeIndexStack := st.scopeIndexStack ++ [0] }

/-- After a pop, `this.scopeIndexStack[this.scopeIndexStack.length - 1]!++`:
increment the last element when it exists. -/
def incrementLast : List Nat → List Nat
  | [] => []
  | [x] => [x + 1]
  | x :: rest => x :: incrementLast rest

def popScope (st : ScopeTracker) : ScopeTracker :=
  let stack1 := incrementLast st.scopeIndexStack.dropLast
  let scopes1 := if st.options.keepExitedScopes then st.scopes else mapDelete st.scopes st.scopeIndexKey
  updateScopeIndexKey { st with scopeIndexStack := stack1, scopes := scopes1 }

def declareIdentifier (st : ScopeTracker) (name : String) (d : STNode) : ScopeTracker :=
  if st.isFrozen then st
  else
    { st with
      scopes := mapSet st.scopes st.scopeIndexKey
        (mapSet ((mapGet st.scopes st.scopeIndexKey).getD []) name d) }

/-! ## Binding patterns (getPatternIdentifiers) -/

mutual
inductive Pat where
  | ident (name : String)
  | assignmentPattern (left : Pat)
  | restElement (argument : Pat)
  | arrayPattern (elements : List (Option Pat))
  | objectPattern (properties : List PatProp)
  | otherPat
inductive PatProp where
  | restProp (argument : Pat)
  | valueProp (value : Pat)
end

mutual
def collectIds : Pat → List String
  | .ident nm => [nm]
  | .assignmentPattern l => collectIds l
  | .restElement a => collectIds a
  | .arrayPattern els => collectIdsElems els
  | .objectPattern ps => collectIdsProps ps
  | .otherPat => []
def collectIdsElems : List (Option Pat) → List String
  | [] => []
  | none :: rest => collectIdsElems rest
  | some e :: rest =>
    (match e with
     | .restElement a => collectIds a
     | p => collectIds p) ++ collectIdsElems rest
def collectIdsProps : List PatProp → List String
  | [] => []
  | .restProp a :: rest => collectIds a ++ collectIdsProps rest
  | .valueProp v :: rest => collectIds v ++ collectIdsProps rest
end

def declareFunctionParameter (st : ScopeTracker) (p : Pat) : ScopeTracker :=
  if st.isFrozen then st
  else (collectIds p).foldl
    (fun s nm => declareIdentifier s nm { kind := .fnParam, name := nm, scope := s.scopeIndexKey }) st

def declarePattern (st : ScopeTracker) (p : Pat) (parentKind : DeclKind) : ScopeTracker :=
  if st.isFrozen then st
  else (collectIds p).foldl
    (fun s nm => declareIdentifier s nm { kind := parentKind, name := nm, scope := s.scopeIndexKey }) st

/-! ## Nodes seen by the scope tracker

`processNodeEnter` switches on `node.type` and reads only a few fields
of each relevant node kind; `SNode` carries exactly those fields.
-/

inductive SNode where
  | program
  | blockStatement
  | staticBlock
  | functionDeclaration (id : Option String) (params : List Pat)
  | functionExpression (id : Option String) (params : List Pat)
  | arrowFunctionExpression (params : List Pat)
  | variableDeclaration (declPats : List Pat)
  | classDeclaration (id : Option String)
  | classExpression (id : Option String)
  | importDeclaration (localNames : List String)
  | catchClause (param : Option Pat)
  | forStatement (initDeclPats : Option (List Pat))
  | forOfStatement (leftDeclPats : Option (List Pat))
  | forInStatement (leftDeclPats : Option (List Pat))
  | otherNode (ty : String)

/-- The guard `if (node.id?.name) declareIdentifier(...)` is JS
truthiness, so a missing id or an empty name declares nothing. -/
def declareIdName (st : ScopeTracker) (id : Option String) (k : DeclKind) : ScopeTracker :=
  match id with
  | some nm => if nm = "" then st else declareIdentifier st nm { kind := k, name := nm, scope := st.scopeIndexKey }
  | none => st

def declareParams (st : ScopeTracker) (params : List Pat) : ScopeTracker :=
  params.foldl (fun s p => declareFunctionParameter s p) st

def processNodeEnter (st : ScopeTracker) (n : SNode) : ScopeTracker :=
  match n with
  | .program => pushScope st
  | .blockStatement => pushScope st
  | .staticBlock => pushScope st
  | .functionDeclaration id params =>
    declareParams (pushScope (declareIdName st id .fn)) params
  | .functionExpression id params =>
    declareParams (pushScope (declareIdName (pushScope st) id .fn)) params
  | .arrowFunctionExpression params => declareParams (pushScope st) params
  | .variableDeclaration pats => pats.foldl (fun s p => declarePattern s p .varKind) st
  | .classDeclaration id => declareIdName st id .identKind
  | .classExpression id => declareIdName (pushScope st) id .identKind
  | .importDeclaration names =>
    names.foldl
      (fun s nm => declareIdentifier s nm { kind := .importKind, name := nm, scope := s.scopeIndexKey }) st
  | .catchClause param =>
    match param with
    | some p => declarePattern (pushScope st) p .catchParam
    | none => pushScope st
  | .forStatement decls =>
    match decls with
    | some ds => ds.foldl (fun s p => declarePattern s p .varKind) (pushScope st)
    | none => pushScope st
  | .forOfStatement decls =>
    match decls with
    | some ds => ds.foldl (fun s p => declarePattern s p .varKind) (pushScope st)
    | none => pushScope st
  | .forInStatement decls =>
    match decls with
    | some ds => ds.foldl (fun s p => declarePattern s p .varKind) (pushScope st)
    | none => pushScope st
  | .otherNode _ => st

def processNodeLeave (st : ScopeTracker) (n : SNode) : ScopeTracker :=
  match n with
  | .program => popScope st
  | .blockStatement => popScope st
  | .catchClause _ => popScope st
  | .functionDeclaration _ _ => popScope st
  | .arrowFunctionExpression _ => popScope st
  | .staticBlock => popScope st
  | .classExpression _ => popScope st
  | .forStatement _ => popScope st
  | .forOfStatement _ => popScope st
  | .forInStatement _ => popScope st
  | .functionExpression _ _ => popScope (popScope st)
  | _ => st

/-! ## Queries -/

/-- The isChildScope helper of scope-tracker.ts:
`a.startsWith(b) && a.length > b.length`. -/
def isChildScope (a b : List Char) : Bool :=
  b.isPrefixOf a && decide (b.length < a.length)

def isCurrentScopeUnder (st : ScopeTracker) (scope : List Char) : Bool :=
  isChildScope st.scopeIndexKey scope

def STNode.isUnderScope (d : STNode) (scope : List Char) : Bool :=
  isChildScope d.scope scope

/-- The keys probed by the lookup loop of `isDeclared`/`getDeclaration`:
`indices.slice(0, i).join('-')` for `i = indices.length` down to `0`,
where `indices = scopeIndexKey.split('-').map(Number)`. -/
def codeChain (indices : List Nat) : List (List Char) :=
  (List.range (indices.length + 1)).reverse.map
    (fun i => joinDash ((indices.take i).map natKey))

def isDeclared (st : ScopeTracker) (name : String) : Bool :=
  if st.scopeIndexKey = [] then
    ((mapGet st.scopes []).map (fun m => (mapGet m name).isSome)).getD false
  else
    (codeChain ((splitDash st.scopeIndexKey).map jsNum)).any
      (fun k => ((mapGet st.scopes k).map (fun m => (mapGet m name).isSome)).getD false)

def getDeclaration (st : ScopeTracker) (name : String) : Option STNode :=
  if st.scopeIndexKey = [] then
    (mapGet st.scopes []).bind (fun m => mapGet m name)
  else
    (codeChain ((splitDash st.scopeIndexKey).map jsNum)).findSome?
      (fun k => (mapGet st.scopes k).bind (fun m => mapGet m name))

def getCurrentScope (st : ScopeTracker) : List Char := st.scopeIndexKey

def freeze (st : ScopeTracker) : ScopeTracker :=
  updateScopeIndexKey { st with isFrozen := true, scopeIndexStack := [] }

/-! ## The walker engine (src/walker/sync.ts and the walker base class)

AST nodes are generic tagged records (`isNode`: an object with a
string-valued `type`).  A field value is a child node, an array, or a
primitive (any value the walker does not recurse into: scalars, null,
and objects without a string `type` tag all behave identically).
-/

mutual
inductive JNode where
  | mk (ty : String) (fields : List (String × JVal))
inductive JVal where
  | node (n : JNode)
  | arr (elems : List JVal)
  | prim (tag : Nat)
end

def JNode.ty : JNode → String
  | .mk t _ => t

def JNode.fields : JNode → List (String × JVal)
  | .mk _ f => f

/-- A directive issued through the enter callback's `this` context:
`skip()`, `remove()`, `replace(node)`. -/
inductive Cmd where
  | skip
  | remove
  | replace (n : JNode)

/-- A directive available in the leave callback's context (no `skip`). -/
inductive LCmd where
  | remove
  | replace (n : JNode)

/-- The walker's per-phase directive flags `_skip`, `_remove`,
`_replacement`, freshly reset before each callback invocation. -/
structure Flags where
  skip : Bool
  remove : Bool
  replacement : Option JNode

structure LFlags where
  remove : Bool
  replacement : Option JNode

def cmdStep (fl : Flags) : Cmd → Flags
  | .skip => { fl with skip := true }
  | .remove => { fl with remove := true }
  | .replace n => { fl with replacement := some n }

def lcmdStep (fl : LFlags) : LCmd → LFlags
  | .remove => { fl with remove := true }
  | .replace n => { fl with replacement := some n }

/-- Net effect of one callback invocation on the freshly reset flags:
the calls to skip/remove/replace executed in order. -/
def runCmds (cs : List Cmd) : Flags :=
  cs.foldl cmdStep { skip := false, remove := false, replacement := none }

def runLCmds (cs : List LCmd) : LFlags :=
  cs.foldl lcmdStep { remove := false, replacement := none }

/-- A callback is modelled by the sequence of directive calls it makes,
as a function of its arguments `(node, parent, ctx.key, ctx.index)`. -/
def CbEnter := JNode → Option JNode → Option String → Option Nat → List Cmd

def CbLeave := JNode → Option JNode → Option String → Option Nat → List LCmd

structure Handler where
  enter : Option CbEnter
  leave : Option CbLeave

/-- Events observable during a traversal: the scope-tracker
notifications and the user callbacks, with the `(key, index)`
coordinates the callback context carries. -/
inductive Ev where
  | scopeEnter (n : JNode)
  | enter (n : JNode) (key : Option String) (idx : Option Nat)
  | scopeLeave (n : JNode)
  | leave (n : JNode) (key : Option String) (idx : Option Nat)

structure EnterOut where
  current : Option JNode
  removed : Bool
  skipKids : Bool
  evs : List Ev

/-- The enter phase (sync.ts lines 58-89): run the callback on reset
flags, then apply replacement (when no removal), then removal.
`current` is the continuation node, `removed` records "removed during
enter" for the leave-time insert. -/
def enterPhase (h : Handler) (input : JNode) (parent : Option JNode)
    (key : Option String) (idx : Option Nat) : EnterOut :=
  match h.enter with
  | none => { current := some input, removed := false, skipKids := false, evs := [] }
  | some f =>
    let fl := runCmds (f input parent key idx)
    { current := if fl.remove then none else some (fl.replacement.getD input)
      removed := fl.remove
      skipKids := fl.skip
      evs := [Ev.enter input key idx] }

/-- The leave phase (sync.ts lines 118-145).  When the node was removed
during enter, a leave-time replacement is spliced back in (`insert`)
rather than written over the slot (`replace`); in this functional
rendering both place the returned node at the node's original slot, so
they coincide.  A leave-time `remove()` calls `this.remove(parent, key,
index)` unconditionally, which splices the slot at `index` even when the
node itself was already removed during enter; the middle component
reports that the leave-time remove fired, so the caller can apply that
second splice. -/
def leavePhase (h : Handler) (current : Option JNode) (input : JNode)
    (parent : Option JNode) (key : Option String) (idx : Option Nat) :
    Option JNode × Bool × List Ev :=
  match h.leave with
  | none => (current, false, [])
  | some g =>
    let fl := runLCmds (g input parent key idx)
    (if fl.remove then none
     else
       match fl.replacement with
       | some m => some m
       | none => current,
     fl.remove,
     [Ev.leave input key idx])

/-- The child loop over one array-valued field (sync.ts lines 99-109):
`wc n i` visits child `n` at index `i`.  A `(none, false, _)` result
means the child's slot was vacated: the array shrank by one in place and
the loop index is not advanced (`i--` then `i++`).  A `(none, true, _)`
result means the child was removed during enter AND its leave phase
called remove() again: that second `splice(index, 1)` hit the former
next sibling, which therefore disappears from the array without ever
being visited (a no-op when the child was the last element). -/
def arrGo (wc : JNode → Nat → Option (Option JNode × Bool × List Ev)) :
    Nat → List JVal → Option (List JVal × List Ev)
  | _, [] => some ([], [])
  | i, v :: rest =>
    match v with
    | JVal.node n =>
      match wc n i with
      | none => none
      | some (none, true, evs) =>
        match rest with
        | [] => some ([], evs)
        | _ :: rest2 => (arrGo wc i rest2).map (fun p => (p.1, evs ++ p.2))
      | some (none, false, evs) => (arrGo wc i rest).map (fun p => (p.1, evs ++ p.2))
      | some (some m, _, evs) =>
        (arrGo wc (i + 1) rest).map (fun p => (JVal.node m :: p.1, evs ++ p.2))
    | _ => (arrGo wc (i + 1) rest).map (fun p => (v :: p.1, p.2))

/-- The loop over the current node's own fields (sync.ts lines 93-113):
arrays are iterated elementwise, singular node fields are visited with
index null, primitives are skipped.  For a singular field the extra
leave-time remove is `delete parent[key]` on an already-deleted field
(a no-op), so the flag is ignored here. -/
def fieldsGo (wc : JNode → Option String → Option Nat → Option (Option JNode × Bool × List Ev)) :
    List (String × JVal) → Option (List (String × JVal) × List Ev)
  | [] => some ([], [])
  | (k, v) :: rest =>
    match v with
    | JVal.arr elems =>
      match arrGo (fun n i => wc n (some k) (some i)) 0 elems with
      | none => none
      | some (elems', evs) =>
        (fieldsGo wc rest).map (fun p => ((k, JVal.arr elems') :: p.1, evs ++ p.2))
    | JVal.node n =>
      match wc n (some k) none with
      | none => none
      | some (none, _, evs) => (fieldsGo wc rest).map (fun p => (p.1, evs ++ p.2))
      | some (some m, _, evs) => (fieldsGo wc rest).map (fun p => ((k, JVal.node m) :: p.1, evs ++ p.2))
    | JVal.prim t => (fieldsGo wc rest).map (fun p => ((k, JVal.prim t) :: p.1, p.2))

/-- One `_walk` invocation of sync.ts.  Fuel bounds the recursion depth
(a callback can install ever-larger replacements, so the source can
diverge); `none` means the fuel ran out.  The result carries the value
`_walk` returns to the parent's child loop (`null` = removed), a flag
set when the leave phase spliced the already-vacated slot a second time
(enter-phase removal followed by a leave-phase remove(), which deletes
the former next sibling in an array parent), and the ordered trace of
notifications and callback invocations. -/
def walkNode (h : Handler) : Nat → JNode → Option JNode → Option String → Option Nat →
    Option (Option JNode × Bool × List Ev)
  | 0, _, _, _, _ => none
  | fuel + 1, input, parent, key, idx =>
    let eo := enterPhase h input parent key idx
    let cres : Option (Option JNode × List Ev) :=
      match eo.skipKids, eo.current with
      | false, some c =>
        match fieldsGo (fun n k i => walkNode h fuel n (some c) k i) c.fields with
        | none => none
        | some (flds, evs) => some (some (JNode.mk c.ty flds), evs)
      | _, _ => some (eo.current, [])
    match cres with
    | none => none
    | some (cur1, childEvs) =>
      let lo := leavePhase h cur1 input parent key idx
      some (lo.1, eo.removed && lo.2.1,
        Ev.scopeEnter input :: eo.evs ++ childEvs ++ Ev.scopeLeave input :: lo.2.2)

/-- The walk of all fields of current node `c`, children visited with
`fuel` fuel. -/
def walkFields (h : Handler) (fuel : Nat) (c : JNode) (flds : List (String × JVal)) :
    Option (List (String × JVal) × List Ev) :=
  fieldsGo (fun n k i => walkNode h fuel n (some c) k i) flds

/-- The child loop over an array-valued field `k` of node `c`, starting
at index `i`. -/
def walkArr (h : Handler) (fuel : Nat) (c : JNode) (k : String) (i : Nat) (elems : List JVal) :
    Option (List JVal × List Ev) :=
  arrGo (fun n j => walkNode h fuel n (some c) (some k) (some j)) i elems

/-- The entry point traverse(input): the root is walked with no parent
and null key/index (with a null parent, `this.remove`/`this.insert` are
no-ops, so the flag is irrelevant at the root). -/
def traverse (h : Handler) (fuel : Nat) (input : JNode) :
    Option (Option JNode × Bool × List Ev) :=
  walkNode h fuel input none none none

/-! ## Spec-side comparison definitions -/

/-- Strict-descendant relation between frame keys as the spec states it:
A is strictly under B iff A is B followed by the '-' separator and at
least one further character of ordinal segments (for the root key B = ""
any non-empty A qualifies). -/
def specStrictDescendant (a b : List Char) : Bool :=
  if b.isEmpty then !a.isEmpty
  else (b ++ ['-']).isPrefixOf a && decide (b.length + 1 < a.length)

/-- Frames pushed on node enter as the amended claim states it:
two for every FunctionExpression, one for every other scope-pushing
kind, zero otherwise. -/
def specPushCount : SNode → Nat
  | .functionExpression _ _ => 2
  | .program | .blockStatement | .staticBlock | .functionDeclaration _ _
  | .arrowFunctionExpression _ | .classExpression _ | .catchClause _
  | .forStatement _ | .forOfStatement _ | .forInStatement _ => 1
  | _ => 0

/-! ## Shape-preservation lemmas for the scope tracker

The declare helpers modify only the `scopes` map; the stack, the current
key, the options and the frozen flag pass through untouched.
-/

def KeepsShape (s t : ScopeTracker) : Prop :=
  t.scopeIndexStack = s.scopeIndexStack ∧ t.scopeIndexKey = s.scopeIndexKey ∧
  t.options = s.options ∧ t.isFrozen = s.isFrozen

theorem keepsShape_self (s : ScopeTracker) : KeepsShape s s :=
  ⟨rfl, rfl, rfl, rfl⟩

theorem keepsShape_trans {a b c : ScopeTracker} (h1 : KeepsShape a b) (h2 : KeepsShape b c) :
    KeepsShape a c :=
  ⟨h2.1.trans h1.1, h2.2.1.trans h1.2.1, h2.2.2.1.trans h1.2.2.1, h2.2.2.2.trans h1.2.2.2⟩

theorem declareIdentifier_shape (st : ScopeTracker) (nm : String) (d : STNode) :
    KeepsShape st (declareIdentifier st nm d) := by
  unfold declareIdentifier
  split
  · exact keepsShape_self st
  · exact ⟨rfl, rfl, rfl, rfl⟩

theorem foldl_shape {α : Type} (f : ScopeTracker → α → ScopeTracker)
    (hf : ∀ s b, KeepsShape s (f s b)) :
    ∀ (l : List α) (st : ScopeTracker), KeepsShape st (l.foldl f st)
  | [], st => keepsShape_self st
  | x :: xs, st => by
    rw [List.foldl_cons]
    exact keepsShape_trans (hf st x) (foldl_shape f hf xs (f st x))

theorem declareFunctionParameter_shape (st : ScopeTracker) (p : Pat) :
    KeepsShape st (declareFunctionParameter st p) := by
  unfold declareFunctionParameter
  split
  · exact keepsShape_self st
  · exact foldl_shape _ (fun s b => declareIdentifier_shape s b _) _ st

theorem declarePattern_shape (st : ScopeTracker) (p : Pat) (k : DeclKind) :
    KeepsShape st (declarePattern st p k) := by
  unfold declarePattern
  split
  · exact keepsShape_self st
  · exact foldl_shape _ (fun s b => declareIdentifier_shape s b _) _ st

theorem declareIdName_shape (st : ScopeTracker) (id : Option String) (k : DeclKind) :
    KeepsShape st (declareIdName st id k) := by
  unfold declareIdName
  match id with
  | none => exact keepsShape_self st
  | some nm =>
    dsimp only
    split
    · exact keepsShape_self st
    · exact declareIdentifier_shape st nm _

theorem declareParams_shape (st : ScopeTracker) (params : List Pat) :
    KeepsShape st (declareParams st params) :=
  foldl_shape _ (fun s b => declareFunctionParameter_shape s b) params st

theorem patFold_shape (st : ScopeTracker) (pats : List Pat) (k : DeclKind) :
    KeepsShape st (pats.foldl (fun s p => declarePattern s p k) st) :=
  foldl_shape _ (fun s b => declarePattern_shape s b k) pats st

theorem importFold_shape (st : ScopeTracker) (names : List String) :
    KeepsShape st
      (names.foldl
        (fun s nm => declareIdentifier s nm { kind := .importKind, name := nm, scope := s.scopeIndexKey }) st) :=
  foldl_shape _ (fun s b => declareIdentifier_shape s b _) names st

theorem pushScope_stack (st : ScopeTracker) :
    (pushScope st).scopeIndexStack = st.scopeIndexStack ++ [0] := rfl

theorem popScope_stack (st : ScopeTracker) :
    (popScope st).scopeIndexStack = incrementLast st.scopeIndexStack.dropLast := rfl

theorem incrementLast_length : ∀ l : List Nat, (incrementLast l).length = l.length
  | [] => rfl
  | [_] => rfl
  | _ :: y :: rest => by
    show (incrementLast (y :: rest)).length + 1 = (y :: rest).length + 1
    rw [incrementLast_length (y :: rest)]

theorem popScope_length (st : ScopeTracker) :
    (popScope st).scopeIndexStack.length = st.scopeIndexStack.length - 1 := by
  rw [popScope_stack, incrementLast_length, List.length_dropLast]

/-- The stack growth of `processNodeEnter`, by cases on the node kind. -/
theorem processNodeEnter_length (st : ScopeTracker) (n : SNode) :
    (processNodeEnter st n).scopeIndexStack.length =
      st.scopeIndexStack.length + specPushCount n := by
  cases n with
  | program => simp [processNodeEnter, specPushCount, pushScope_stack]
  | blockStatement => simp [processNodeEnter, specPushCount, pushScope_stack]
  | staticBlock => simp [processNodeEnter, specPushCount, pushScope_stack]
  | functionDeclaration id params =>
    have h1 := (declareIdName_shape st id .fn).1
    have h2 := (declareParams_shape (pushScope (declareIdName st id .fn)) params).1
    simp [processNodeEnter, specPushCount, h2, pushScope_stack, h1]
  | functionExpression id params =>
    have h1 := (declareIdName_shape (pushScope st) id .fn).1
    have h2 := (declareParams_shape (pushScope (declareIdName (pushScope st) id .fn)) params).1
    simp [processNodeEnter, specPushCount, h2, pushScope_stack, h1]
  | arrowFunctionExpression params =>
    have h2 := (declareParams_shape (pushScope st) params).1
    simp [processNodeEnter, specPushCount, h2, pushScope_stack]
  | variableDeclaration pats =>
    have h2 := (patFold_shape st pats .varKind).1
    simp [processNodeEnter, specPushCount, h2]
  | classDeclaration id =>
    have h1 := (declareIdName_shape st id .identKind).1
    simp [processNodeEnter, specPushCount, h1]
  | classExpression id =>
    have h1 := (declareIdName_shape (pushScope st) id .identKind).1
    simp [processNodeEnter, specPushCount, h1, pushScope_stack]
  | importDeclaration names =>
    have h2 := (importFold_shape st names).1
    simp [processNodeEnter, specPushCount, h2]
  | catchClause param =>
    cases param with
    | none => simp [processNodeEnter, specPushCount, pushScope_stack]
    | some p =>
      have h2 := (declarePattern_shape (pushScope st) p .catchParam).1
      simp [processNodeEnter, specPushCount, h2, pushScope_stack]
  | forStatement decls =>
    cases decls with
    | none => simp [processNodeEnter, specPushCount, pushScope_stack]
    | some ds =>
      have h2 := (patFold_shape (pushScope st) ds .varKind).1
      simp [processNodeEnter, specPushCount, h2, pushScope_stack]
  | forOfStatement decls =>
    cases decls with
    | none => simp [processNodeEnter, specPushCount, pushScope_stack]
    | some ds =>
      have h2 := (patFold_shape (pushScope st) ds .varKind).1
      simp [processNodeEnter, specPushCount, h2, pushScope_stack]
  | forInStatement decls =>
    cases decls with
    | none => simp [processNodeEnter, specPushCount, pushScope_stack]
    | some ds =>
      have h2 := (patFold_shape (pushScope st) ds .varKind).1
      simp [processNodeEnter, specPushCount, h2, pushScope_stack]
  | otherNode ty => simp [processNodeEnter, specPushCount]

/-- The stack shrinkage of `processNodeLeave`, by cases on the node
kind. -/
theorem processNodeLeave_length (st : ScopeTracker) (n : SNode) :
    (processNodeLeave st n).scopeIndexStack.length =
      st.scopeIndexStack.length - specPushCount n := by
  cases n <;>
    simp [processNodeLeave, specPushCount, popScope_length, Nat.sub_sub]

/-! ## Claim C1 -/

/-- A concrete tracker whose current frame key is "0-11" (twelve sibling
frames entered under frame "0", current frame is the twelfth). -/
def stC1 : ScopeTracker :=
  { scopeIndexStack := [0, 11, 0], scopeIndexKey := "0-11".toList,
    scopes := [], options := { keepExitedScopes := false }, isFrozen := false }

def dC1 : STNode := { kind := .fn, name := "f", scope := "0-11".toList }

/-- C1: the code's strict-descendant test is a bare string-prefix check.
At current key "0-11" and query key "0-1", `isCurrentScopeUnder` (and a
declaration record's `isUnderScope`) return true, although "0-11" is a
sibling of "0-1", not a descendant: the claim's separator-aware
descendant relation rejects this pair. -/
theorem isChildScope_prefix_not_descendant :
    isCurrentScopeUnder stC1 "0-1".toList = true ∧
    STNode.isUnderScope dC1 "0-1".toList = true ∧
    isChildScope "0-11".toList "0-1".toList = true ∧
    specStrictDescendant "0-11".toList "0-1".toList = false := by
  decide

/-! ## Claim C7 -/

/-- C7 counterexample: an unnamed function expression is not "a named
function expression", yet entering it pushes two frames, not one. -/
theorem functionExpression_unnamed_pushes_two :
    ¬ ((processNodeEnter (STInit { keepExitedScopes := false })
          (SNode.functionExpression none [])).scopeIndexStack.length =
        (STInit { keepExitedScopes := false }).scopeIndexStack.length + 1) := by
  decide

/-- C7 (amended): every node kind pops on leave exactly as many frames
as it pushes on enter; the number pushed is one for every scope-pushing
kind except FunctionExpression, which pushes two (named or not) and
pops two. -/
theorem enter_leave_frame_balance (st : ScopeTracker) (n : SNode) :
    (processNodeEnter st n).scopeIndexStack.length =
      st.scopeIndexStack.length + specPushCount n ∧
    (processNodeLeave st n).scopeIndexStack.length =
      st.scopeIndexStack.length - specPushCount n ∧
    (processNodeLeave (processNodeEnter st n) n).scopeIndexStack.length =
      st.scopeIndexStack.length := by
  refine ⟨processNodeEnter_length st n, processNodeLeave_length st n, ?_⟩
  rw [processNodeLeave_length, processNodeEnter_length, Nat.add_sub_cancel]

/-! ## Claim C8: freeze and replay -/

/-- The enter/leave notification stream a traversal feeds the tracker. -/
inductive SEvent where
  | enterEv (n : SNode)
  | leaveEv (n : SNode)

def stepEvent (st : ScopeTracker) (e : SEvent) : ScopeTracker :=
  match e with
  | .enterEv n => processNodeEnter st n
  | .leaveEv n => processNodeLeave st n

def runEvents (st : ScopeTracker) (evs : List SEvent) : ScopeTracker :=
  evs.foldl stepEvent st

/-- The current-frame key observed after each notification. -/
def keyTrace (st : ScopeTracker) : List SEvent → List (List Char)
  | [] => []
  | e :: rest => (stepEvent st e).scopeIndexKey :: keyTrace (stepEvent st e) rest

theorem pushScope_key (st : ScopeTracker) :
    (pushScope st).scopeIndexKey =
      joinDash ((st.scopeIndexStack ++ [0]).dropLast.map natKey) := rfl

theorem pushScope_scopes (st : ScopeTracker) : (pushScope st).scopes = st.scopes := rfl

theorem pushScope_frozen (st : ScopeTracker) : (pushScope st).isFrozen = st.isFrozen := rfl

theorem pushScope_options (st : ScopeTracker) : (pushScope st).options = st.options := rfl

theorem popScope_key (st : ScopeTracker) :
    (popScope st).scopeIndexKey =
      joinDash ((incrementLast st.scopeIndexStack.dropLast).dropLast.map natKey) := rfl

theorem popScope_frozen (st : ScopeTracker) : (popScope st).isFrozen = st.isFrozen := rfl

theorem popScope_options (st : ScopeTracker) : (popScope st).options = st.options := rfl

theorem popScope_scopes_keep (st : ScopeTracker) (h : st.options.keepExitedScopes = true) :
    (popScope st).scopes = st.scopes := by
  unfold popScope
  simp [updateScopeIndexKey, h]

/-! Frozen declare helpers are identities. -/

theorem declareIdentifier_frozen (st : ScopeTracker) (nm : String) (d : STNode)
    (h : st.isFrozen = true) : declareIdentifier st nm d = st := by
  simp [declareIdentifier, h]

theorem foldl_frozen_id {α : Type} (f : ScopeTracker → α → ScopeTracker)
    (hf : ∀ s b, s.isFrozen = true → f s b = s) :
    ∀ (l : List α) (st : ScopeTracker), st.isFrozen = true → l.foldl f st = st
  | [], _, _ => rfl
  | x :: xs, st, h => by
    rw [List.foldl_cons, hf st x h, foldl_frozen_id f hf xs st h]

theorem declareFunctionParameter_frozen (st : ScopeTracker) (p : Pat)
    (h : st.isFrozen = true) : declareFunctionParameter st p = st := by
  simp [declareFunctionParameter, h]

theorem declarePattern_frozen (st : ScopeTracker) (p : Pat) (k : DeclKind)
    (h : st.isFrozen = true) : declarePattern st p k = st := by
  simp [declarePattern, h]

theorem declareIdName_frozen (st : ScopeTracker) (id : Option String) (k : DeclKind)
    (h : st.isFrozen = true) : declareIdName st id k = st := by
  unfold declareIdName
  match id with
  | none => rfl
  | some nm =>
    dsimp only
    split
    · rfl
    · exact declareIdentifier_frozen st nm _ h

theorem declareParams_frozen (st : ScopeTracker) (params : List Pat)
    (h : st.isFrozen = true) : declareParams st params = st :=
  foldl_frozen_id _ (fun s b hs => declareFunctionParameter_frozen s b hs) params st h

theorem patFold_frozen (st : ScopeTracker) (pats : List Pat) (k : DeclKind)
    (h : st.isFrozen = true) :
    pats.foldl (fun s p => declarePattern s p k) st = st :=
  foldl_frozen_id _ (fun s b hs => declarePattern_frozen s b k hs) pats st h

theorem importFold_frozen (st : ScopeTracker) (names : List String)
    (h : st.isFrozen = true) :
    names.foldl
      (fun s nm => declareIdentifier s nm { kind := .importKind, name := nm, scope := s.scopeIndexKey }) st = st :=
  foldl_frozen_id _ (fun s b hs => declareIdentifier_frozen s b _ hs) names st h

/-- On a frozen tracker, entering a node only pushes frames (zero, one
or two of them); no declaration is recorded. -/
theorem processNodeEnter_frozen_cases (st : ScopeTracker) (n : SNode)
    (h : st.isFrozen = true) :
    processNodeEnter st n = st ∨ processNodeEnter st n = pushScope st ∨
      processNodeEnter st n = pushScope (pushScope st) := by
  have hp : (pushScope st).isFrozen = true := by rw [pushScope_frozen]; exact h
  have hpp : (pushScope (pushScope st)).isFrozen = true := by rw [pushScope_frozen]; exact hp
  cases n with
  | program => exact Or.inr (Or.inl rfl)
  | blockStatement => exact Or.inr (Or.inl rfl)
  | staticBlock => exact Or.inr (Or.inl rfl)
  | functionDeclaration id params =>
    refine Or.inr (Or.inl ?_)
    show declareParams (pushScope (declareIdName st id .fn)) params = pushScope st
    rw [declareIdName_frozen st id .fn h, declareParams_frozen _ _ hp]
  | functionExpression id params =>
    refine Or.inr (Or.inr ?_)
    show declareParams (pushScope (declareIdName (pushScope st) id .fn)) params =
      pushScope (pushScope st)
    rw [declareIdName_frozen _ id .fn hp, declareParams_frozen _ _ hpp]
  | arrowFunctionExpression params =>
    exact Or.inr (Or.inl (declareParams_frozen _ _ hp))
  | variableDeclaration pats => exact Or.inl (patFold_frozen st pats .varKind h)
  | classDeclaration id => exact Or.inl (declareIdName_frozen st id .identKind h)
  | classExpression id => exact Or.inr (Or.inl (declareIdName_frozen _ id .identKind hp))
  | importDeclaration names => exact Or.inl (importFold_frozen st names h)
  | catchClause param =>
    cases param with
    | none => exact Or.inr (Or.inl rfl)
    | some p => exact Or.inr (Or.inl (declarePattern_frozen _ p .catchParam hp))
  | forStatement decls =>
    cases decls with
    | none => exact Or.inr (Or.inl rfl)
    | some ds => exact Or.inr (Or.inl (patFold_frozen _ ds .varKind hp))
  | forOfStatement decls =>
    cases decls with
    | none => exact Or.inr (Or.inl rfl)
    | some ds => exact Or.inr (Or.inl (patFold_frozen _ ds .varKind hp))
  | forInStatement decls =>
    cases decls with
    | none => exact Or.inr (Or.inl rfl)
    | some ds => exact Or.inr (Or.inl (patFold_frozen _ ds .varKind hp))
  | otherNode ty => exact Or.inl rfl

/-- Leaving a node only pops frames (zero, one or two of them). -/
theorem processNodeLeave_cases (st : ScopeTracker) (n : SNode) :
    processNodeLeave st n = st ∨ processNodeLeave st n = popScope st ∨
      processNodeLeave st n = popScope (popScope st) := by
  cases n <;> simp [processNodeLeave]

/-! The stack and the key evolve as a function of the stack and key
alone; declarations, options and the frozen flag do not influence them. -/

def pushSK (p : List Nat × List Char) : List Nat × List Char :=
  (p.1 ++ [0], joinDash ((p.1 ++ [0]).dropLast.map natKey))

def popSK (p : List Nat × List Char) : List Nat × List Char :=
  (incrementLast p.1.dropLast,
   joinDash ((incrementLast p.1.dropLast).dropLast.map natKey))

def enterSK (p : List Nat × List Char) : SNode → List Nat × List Char
  | .functionExpression _ _ => pushSK (pushSK p)
  | .program | .blockStatement | .staticBlock | .functionDeclaration _ _
  | .arrowFunctionExpression _ | .classExpression _ | .catchClause _
  | .forStatement _ | .forOfStatement _ | .forInStatement _ => pushSK p
  | _ => p

def leaveSK (p : List Nat × List Char) : SNode → List Nat × List Char
  | .functionExpression _ _ => popSK (popSK p)
  | .program | .blockStatement | .staticBlock | .functionDeclaration _ _
  | .arrowFunctionExpression _ | .classExpression _ | .catchClause _
  | .forStatement _ | .forOfStatement _ | .forInStatement _ => popSK p
  | _ => p

def stepSK (p : List Nat × List Char) : SEvent → List Nat × List Char
  | .enterEv n => enterSK p n
  | .leaveEv n => leaveSK p n

theorem processNodeEnter_sk (st : ScopeTracker) (n : SNode) :
    (processNodeEnter st n).scopeIndexStack =
      (enterSK (st.scopeIndexStack, st.scopeIndexKey) n).1 ∧
    (processNodeEnter st n).scopeIndexKey =
      (enterSK (st.scopeIndexStack, st.scopeIndexKey) n).2 := by
  cases n with
  | program => exact ⟨rfl, rfl⟩
  | blockStatement => exact ⟨rfl, rfl⟩
  | staticBlock => exact ⟨rfl, rfl⟩
  | functionDeclaration id params =>
    have h1 := declareIdName_shape st id .fn
    have h2 := declareParams_shape (pushScope (declareIdName st id .fn)) params
    refine ⟨?_, ?_⟩
    · show (declareParams (pushScope (declareIdName st id .fn)) params).scopeIndexStack = _
      rw [h2.1, pushScope_stack, h1.1]; rfl
    · show (declareParams (pushScope (declareIdName st id .fn)) params).scopeIndexKey = _
      rw [h2.2.1, pushScope_key, h1.1]; rfl
  | functionExpression id params =>
    have h1 := declareIdName_shape (pushScope st) id .fn
    have h2 := declareParams_shape (pushScope (declareIdName (pushScope st) id .fn)) params
    refine ⟨?_, ?_⟩
    · show (declareParams (pushScope (declareIdName (pushScope st) id .fn)) params).scopeIndexStack = _
      rw [h2.1, pushScope_stack, h1.1, pushScope_stack]; rfl
    · show (declareParams (pushScope (declareIdName (pushScope st) id .fn)) params).scopeIndexKey = _
      rw [h2.2.1, pushScope_key, h1.1, pushScope_stack]; rfl
  | arrowFunctionExpression params =>
    have h2 := declareParams_shape (pushScope st) params
    exact ⟨by rw [show processNodeEnter st (.arrowFunctionExpression params) =
        declareParams (pushScope st) params from rfl, h2.1]; rfl,
      by rw [show processNodeEnter st (.arrowFunctionExpression params) =
        declareParams (pushScope st) params from rfl, h2.2.1, pushScope_key]; rfl⟩
  | variableDeclaration pats =>
    have h2 := patFold_shape st pats .varKind
    exact ⟨h2.1, h2.2.1⟩
  | classDeclaration id =>
    have h1 := declareIdName_shape st id .identKind
    exact ⟨h1.1, h1.2.1⟩
  | classExpression id =>
    have h1 := declareIdName_shape (pushScope st) id .identKind
    exact ⟨by rw [show processNodeEnter st (.classExpression id) =
        declareIdName (pushScope st) id .identKind from rfl, h1.1]; rfl,
      by rw [show processNodeEnter st (.classExpression id) =
        declareIdName (pushScope st) id .identKind from rfl, h1.2.1, pushScope_key]; rfl⟩
  | importDeclaration names =>
    have h2 := importFold_shape st names
    exact ⟨h2.1, h2.2.1⟩
  | catchClause param =>
    cases param with
    | none => exact ⟨rfl, rfl⟩
    | some p =>
      have h2 := declarePattern_shape (pushScope st) p .catchParam
      exact ⟨by rw [show processNodeEnter st (.catchClause (some p)) =
          declarePattern (pushScope st) p .catchParam from rfl, h2.1]; rfl,
        by rw [show processNodeEnter st (.catchClause (some p)) =
          declarePattern (pushScope st) p .catchParam from rfl, h2.2.1, pushScope_key]; rfl⟩
  | forStatement decls =>
    cases decls with
    | none => exact ⟨rfl, rfl⟩
    | some ds =>
      have h2 := patFold_shape (pushScope st) ds .varKind
      exact ⟨by rw [show processNodeEnter st (.forStatement (some ds)) =
          ds.foldl (fun s p => declarePattern s p .varKind) (pushScope st) from rfl, h2.1]; rfl,
        by rw [show processNodeEnter st (.forStatement (some ds)) =
          ds.foldl (fun s p => declarePattern s p .varKind) (pushScope st) from rfl, h2.2.1,
          pushScope_key]; rfl⟩
  | forOfStatement decls =>
    cases decls with
    | none => exact ⟨rfl, rfl⟩
    | some ds =>
      have h2 := patFold_shape (pushScope st) ds .varKind
      exact ⟨by rw [show processNodeEnter st (.forOfStatement (some ds)) =
          ds.foldl (fun s p => declarePattern s p .varKind) (pushScope st) from rfl, h2.1]; rfl,
        by rw [show processNodeEnter st (.forOfStatement (some ds)) =
          ds.foldl (fun s p => declarePattern s p .varKind) (pushScope st) from rfl, h2.2.1,
          pushScope_key]; rfl⟩
  | forInStatement decls =>
    cases decls with
    | none => exact ⟨rfl, rfl⟩
    | some ds =>
      have h2 := patFold_shape (pushScope st) ds .varKind
      exact ⟨by rw [show processNodeEnter st (.forInStatement (some ds)) =
          ds.foldl (fun s p => declarePattern s p .varKind) (pushScope st) from rfl, h2.1]; rfl,
        by rw [show processNodeEnter st (.forInStatement (some ds)) =
          ds.foldl (fun s p => declarePattern s p .varKind) (pushScope st) from rfl, h2.2.1,
          pushScope_key]; rfl⟩
  | otherNode ty => exact ⟨rfl, rfl⟩

theorem processNodeLeave_sk (st : ScopeTracker) (n : SNode) :
    (processNodeLeave st n).scopeIndexStack =
      (leaveSK (st.scopeIndexStack, st.scopeIndexKey) n).1 ∧
    (processNodeLeave st n).scopeIndexKey =
      (leaveSK (st.scopeIndexStack, st.scopeIndexKey) n).2 := by
  cases n <;> exact ⟨rfl, rfl⟩

theorem stepEvent_sk (st : ScopeTracker) (e : SEvent) :
    (stepEvent st e).scopeIndexStack =
      (stepSK (st.scopeIndexStack, st.scopeIndexKey) e).1 ∧
    (stepEvent st e).scopeIndexKey =
      (stepSK (st.scopeIndexStack, st.scopeIndexKey) e).2 := by
  cases e with
  | enterEv n => exact processNodeEnter_sk st n
  | leaveEv n => exact processNodeLeave_sk st n

/-- Two trackers with the same stack and key see identical key traces
under any notification stream: the position bookkeeping is a
deterministic function of the event sequence, independent of the frozen
flag, the options and the recorded declarations. -/
theorem keyTrace_transfer :
    ∀ (evs : List SEvent) (st1 st2 : ScopeTracker),
      st1.scopeIndexStack = st2.scopeIndexStack →
      st1.scopeIndexKey = st2.scopeIndexKey →
      keyTrace st1 evs = keyTrace st2 evs
  | [], _, _, _, _ => rfl
  | e :: rest, st1, st2, hs, hk => by
    have h1 := stepEvent_sk st1 e
    have h2 := stepEvent_sk st2 e
    have hs' : (stepEvent st1 e).scopeIndexStack = (stepEvent st2 e).scopeIndexStack := by
      rw [h1.1, h2.1, hs, hk]
    have hk' : (stepEvent st1 e).scopeIndexKey = (stepEvent st2 e).scopeIndexKey := by
      rw [h1.2, h2.2, hs, hk]
    show (stepEvent st1 e).scopeIndexKey :: keyTrace (stepEvent st1 e) rest =
      (stepEvent st2 e).scopeIndexKey :: keyTrace (stepEvent st2 e) rest
    rw [hk', keyTrace_transfer rest (stepEvent st1 e) (stepEvent st2 e) hs' hk']

theorem stepEvent_frozen_keep (st : ScopeTracker) (e : SEvent)
    (h1 : st.isFrozen = true) (h2 : st.options.keepExitedScopes = true) :
    (stepEvent st e).scopes = st.scopes ∧ (stepEvent st e).isFrozen = true ∧
      (stepEvent st e).options = st.options := by
  cases e with
  | enterEv n =>
    rcases processNodeEnter_frozen_cases st n h1 with h | h | h <;>
      rw [show stepEvent st (.enterEv n) = processNodeEnter st n from rfl, h] <;>
      exact ⟨rfl, h1, rfl⟩
  | leaveEv n =>
    have hpop : (popScope st).scopes = st.scopes := popScope_scopes_keep st h2
    have hpop2 : (popScope (popScope st)).scopes = st.scopes := by
      rw [popScope_scopes_keep (popScope st) (by rw [popScope_options]; exact h2), hpop]
    rcases processNodeLeave_cases st n with h | h | h <;>
      rw [show stepEvent st (.leaveEv n) = processNodeLeave st n from rfl, h]
    · exact ⟨rfl, h1, rfl⟩
    · exact ⟨hpop, by rw [popScope_frozen]; exact h1, rfl⟩
    · exact ⟨hpop2, by rw [popScope_frozen, popScope_frozen]; exact h1, rfl⟩

/-- A frozen tracker that keeps exited scopes carries its recorded
declarations unchanged through any further notification stream. -/
theorem runEvents_frozen_keep :
    ∀ (evs : List SEvent) (st : ScopeTracker),
      st.isFrozen = true → st.options.keepExitedScopes = true →
      (runEvents st evs).scopes = st.scopes
  | [], _, _, _ => rfl
  | e :: rest, st, h1, h2 => by
    obtain ⟨ha, hb, hc⟩ := stepEvent_frozen_keep st e h1 h2
    show (runEvents (stepEvent st e) rest).scopes = st.scopes
    rw [runEvents_frozen_keep rest (stepEvent st e) hb (by rw [hc]; exact h2), ha]

theorem freeze_stack (st : ScopeTracker) : (freeze st).scopeIndexStack = [] := rfl

theorem freeze_key (st : ScopeTracker) : (freeze st).scopeIndexKey = [] := rfl

theorem declareParams_options (st : ScopeTracker) (params : List Pat) :
    (declareParams st params).options = st.options :=
  (declareParams_shape st params).2.2.1

theorem declareIdName_options (st : ScopeTracker) (id : Option String) (k : DeclKind) :
    (declareIdName st id k).options = st.options :=
  (declareIdName_shape st id k).2.2.1

theorem patFold_options (st : ScopeTracker) (pats : List Pat) (k : DeclKind) :
    (pats.foldl (fun s p => declarePattern s p k) st).options = st.options :=
  (patFold_shape st pats k).2.2.1

theorem importFold_options (st : ScopeTracker) (names : List String) :
    (names.foldl
      (fun s nm => declareIdentifier s nm { kind := .importKind, name := nm, scope := s.scopeIndexKey })
      st).options = st.options :=
  (importFold_shape st names).2.2.1

theorem declarePattern_options (st : ScopeTracker) (p : Pat) (k : DeclKind) :
    (declarePattern st p k).options = st.options :=
  (declarePattern_shape st p k).2.2.1

theorem processNodeEnter_options (st : ScopeTracker) (n : SNode) :
    (processNodeEnter st n).options = st.options := by
  cases n with
  | catchClause param =>
    cases param <;>
      simp [processNodeEnter, declarePattern_options, pushScope_options]
  | forStatement decls =>
    cases decls <;> simp [processNodeEnter, patFold_options, pushScope_options]
  | forOfStatement decls =>
    cases decls <;> simp [processNodeEnter, patFold_options, pushScope_options]
  | forInStatement decls =>
    cases decls <;> simp [processNodeEnter, patFold_options, pushScope_options]
  | _ =>
    simp [processNodeEnter, declareParams_options, declareIdName_options,
      patFold_options, importFold_options, pushScope_options]

theorem processNodeLeave_options (st : ScopeTracker) (n : SNode) :
    (processNodeLeave st n).options = st.options := by
  cases n <;> simp [processNodeLeave, popScope_options]

theorem runEvents_options :
    ∀ (evs : List SEvent) (st : ScopeTracker), (runEvents st evs).options = st.options
  | [], _ => rfl
  | e :: rest, st => by
    show (runEvents (stepEvent st e) rest).options = st.options
    rw [runEvents_options rest (stepEvent st e)]
    cases e with
    | enterEv n => exact processNodeEnter_options st n
    | leaveEv n => exact processNodeLeave_options st n

/-- C8: freezing makes every later declaration attempt a no-op while the
position bookkeeping is reset to the root and keeps working, and (with
keep-exited-scopes) the collected declarations survive a full replay,
which reproduces the building pass's key sequence. -/
theorem freeze_semantics (st : ScopeTracker) (n : SNode) (opts : STOptions)
    (evs : List SEvent) :
    (freeze st).isFrozen = true ∧
    (freeze st).scopeIndexKey = [] ∧
    (freeze st).scopes = st.scopes ∧
    (st.isFrozen = true → (processNodeEnter st n).scopes = st.scopes) ∧
    keyTrace (freeze (runEvents (STInit opts) evs)) evs = keyTrace (STInit opts) evs ∧
    (opts.keepExitedScopes = true →
      (runEvents (freeze (runEvents (STInit opts) evs)) evs).scopes =
        (runEvents (STInit opts) evs).scopes) := by
  refine ⟨rfl, rfl, rfl, ?_, ?_, ?_⟩
  · intro h
    rcases processNodeEnter_frozen_cases st n h with he | he | he <;> rw [he] <;> rfl
  · exact keyTrace_transfer evs _ _ rfl rfl
  · intro hkeep
    have hopts : (freeze (runEvents (STInit opts) evs)).options = opts := by
      show (runEvents (STInit opts) evs).options = opts
      rw [runEvents_options]
      rfl
    rw [show (runEvents (STInit opts) evs).scopes = (freeze (runEvents (STInit opts) evs)).scopes
      from rfl]
    exact runEvents_frozen_keep evs _ rfl (by rw [hopts]; exact hkeep)

/-- A frozen tracker holding one root declaration, options keeping
exited scopes. -/
def stW : ScopeTracker :=
  { scopeIndexStack := [0], scopeIndexKey := [],
    scopes := [([], [("a", { kind := .fn, name := "a", scope := [] })])],
    options := { keepExitedScopes := true }, isFrozen := true }

def evsW : List SEvent := [SEvent.enterEv .program, SEvent.leaveEv .program]

/-- C8 witness at a concrete frozen tracker and event stream. -/
theorem freeze_semantics_witness :
    (freeze stW).scopes = stW.scopes ∧
    (processNodeEnter stW SNode.program).scopes = stW.scopes ∧
    keyTrace (freeze (runEvents (STInit { keepExitedScopes := true }) evsW)) evsW =
      keyTrace (STInit { keepExitedScopes := true }) evsW ∧
    (runEvents (freeze (runEvents (STInit { keepExitedScopes := true }) evsW)) evsW).scopes =
      (runEvents (STInit { keepExitedScopes := true }) evsW).scopes := by
  have h := freeze_semantics stW SNode.program { keepExitedScopes := true } evsW
  exact ⟨h.2.2.1, h.2.2.2.1 rfl, h.2.2.2.2.1, h.2.2.2.2.2 rfl⟩

/-! ## Claim C10: isDeclared, getDeclaration and nearest-frame lookup -/

/-- The ancestor chain of the current frame, from the current frame
outward to the root, expressed on the key's own segments (the spec's
frame-tree ancestry). -/
def specChain (key : List Char) : List (List Char) :=
  if key = [] then [[]]
  else
    (List.range ((splitDash key).length + 1)).reverse.map
      (fun i => joinDash ((splitDash key).take i))

/-- Nearest-enclosing-frame lookup as the spec words it: the first frame
along the outward ancestor chain that binds the name. -/
def specLookup (st : ScopeTracker) (name : String) : Option STNode :=
  (specChain st.scopeIndexKey).findSome?
    (fun k => (mapGet st.scopes k).bind (fun m => mapGet m name))

/-- Keys produced by the tracker itself: every '-'-separated segment is
the canonical decimal rendering of its ordinal. -/
@[reducible]
def canonicalKey (key : List Char) : Prop :=
  ∀ seg ∈ splitDash key, natKey (jsNum seg) = seg

theorem findSome_singleton {α β : Type} (f : α → Option β) (a : α) :
    List.findSome? f [a] = f a := by
  cases h : f a <;> simp [List.findSome?_cons, h]

theorem any_eq_findSome_isSome {α β : Type} (p : α → Bool) (f : α → Option β)
    (hp : ∀ a, p a = (f a).isSome) :
    ∀ l : List α, l.any p = (l.findSome? f).isSome
  | [] => rfl
  | a :: rest => by
    rw [List.any_cons, List.findSome?_cons, hp a]
    cases h : f a with
    | none => simp [any_eq_findSome_isSome p f hp rest]
    | some b => simp

theorem codeChain_eq_specChain (key : List Char) (hc : canonicalKey key) :
    codeChain ((splitDash key).map jsNum) =
      (List.range ((splitDash key).length + 1)).reverse.map
        (fun i => joinDash ((splitDash key).take i)) := by
  unfold codeChain
  rw [List.length_map]
  refine List.map_congr_left ?_
  intro i _
  congr 1
  rw [← List.map_take, List.map_map]
  exact (List.map_congr_left
    (fun seg hseg => hc seg (List.take_subset i _ hseg))).trans
    (List.map_id _)

/-- C10: `isDeclared` answers exactly "does `getDeclaration` find a
record", and on tracker-generated (canonical) keys the record
`getDeclaration` returns is the binding of the nearest frame along the
outward ancestor chain of the current frame. -/
theorem isDeclared_iff_getDeclaration (st : ScopeTracker) (name : String) :
    (isDeclared st name = true ↔ (getDeclaration st name).isSome = true) ∧
    (canonicalKey st.scopeIndexKey → getDeclaration st name = specLookup st name) := by
  constructor
  · unfold isDeclared getDeclaration
    by_cases hk : st.scopeIndexKey = []
    · simp only [hk, if_pos rfl]
      cases h : mapGet st.scopes [] with
      | none => simp
      | some m => simp
    · simp only [if_neg hk]
      rw [any_eq_findSome_isSome _ (fun k => (mapGet st.scopes k).bind (fun m => mapGet m name))]
      intro k
      cases h : mapGet st.scopes k with
      | none => simp [h]
      | some m => simp [h]
  · intro hc
    unfold getDeclaration specLookup specChain
    by_cases hk : st.scopeIndexKey = []
    · simp only [hk, reduceIte]
      rw [findSome_singleton]
    · simp only [if_neg hk]
      rw [codeChain_eq_specChain st.scopeIndexKey hc]

/-- A reachable-looking tracker: current key "0-1", a binding "a" in the
root frame and a binding "b" in frame "0". -/
def stC10 : ScopeTracker :=
  { scopeIndexStack := [0, 1, 0], scopeIndexKey := "0-1".toList,
    scopes := [([], [("a", { kind := .varKind, name := "a", scope := [] })]),
               ("0".toList, [("b", { kind := .varKind, name := "b", scope := "0".toList })])],
    options := { keepExitedScopes := true }, isFrozen := false }

/-- C10 witness at a concrete tracker state. -/
theorem isDeclared_iff_getDeclaration_witness :
    (isDeclared stC10 "b" = true ↔ (getDeclaration stC10 "b").isSome = true) ∧
    getDeclaration stC10 "b" = specLookup stC10 "b" := by
  have h := isDeclared_iff_getDeclaration stC10 "b"
  exact ⟨h.1, h.2 (by decide)⟩

/-! ## Walker phase lemmas -/

theorem enterPhase_some (h : Handler) (f : CbEnter) (hE : h.enter = some f)
    (input : JNode) (parent : Option JNode) (key : Option String) (idx : Option Nat) :
    enterPhase h input parent key idx =
      { current := if (runCmds (f input parent key idx)).remove then none
          else some ((runCmds (f input parent key idx)).replacement.getD input)
        removed := (runCmds (f input parent key idx)).remove
        skipKids := (runCmds (f input parent key idx)).skip
        evs := [Ev.enter input key idx] } := by
  unfold enterPhase
  rw [hE]

theorem leavePhase_none (h : Handler) (hL : h.leave = none)
    (current : Option JNode) (input : JNode) (parent : Option JNode)
    (key : Option String) (idx : Option Nat) :
    leavePhase h current input parent key idx = (current, false, []) := by
  unfold leavePhase
  rw [hL]

theorem leavePhase_some (h : Handler) (g : CbLeave) (hL : h.leave = some g)
    (current : Option JNode) (input : JNode) (parent : Option JNode)
    (key : Option String) (idx : Option Nat) :
    leavePhase h current input parent key idx =
      (if (runLCmds (g input parent key idx)).remove then none
       else
         match (runLCmds (g input parent key idx)).replacement with
         | some m => some m
         | none => current,
       (runLCmds (g input parent key idx)).remove,
       [Ev.leave input key idx]) := by
  unfold leavePhase
  rw [hL]

/-- When the enter phase leaves no continuation node or requests a skip,
the child loop never runs: the step goes straight from the enter phase
to the scope-leave notification and the leave phase. -/
theorem walkNode_no_descend (h : Handler) (fuel : Nat) (n : JNode) (parent : Option JNode)
    (key : Option String) (idx : Option Nat)
    (hnd : (enterPhase h n parent key idx).current = none ∨
      (enterPhase h n parent key idx).skipKids = true) :
    walkNode h (fuel + 1) n parent key idx =
      some ((leavePhase h (enterPhase h n parent key idx).current n parent key idx).1,
        ((enterPhase h n parent key idx).removed &&
          (leavePhase h (enterPhase h n parent key idx).current n parent key idx).2.1),
        Ev.scopeEnter n :: (enterPhase h n parent key idx).evs ++
          Ev.scopeLeave n ::
            (leavePhase h (enterPhase h n parent key idx).current n parent key idx).2.2) := by
  rcases hnd with hcur | hsk
  · cases hsk : (enterPhase h n parent key idx).skipKids <;>
      simp only [walkNode, hcur, hsk, List.nil_append, List.append_nil]
  · simp only [walkNode, hsk, List.nil_append, List.append_nil]

theorem arrGo_cons_removed (wc : JNode → Nat → Option (Option JNode × Bool × List Ev))
    (i : Nat) (n : JNode) (rest : List JVal) (evs : List Ev)
    (hw : wc n i = some (none, false, evs)) :
    arrGo wc i (JVal.node n :: rest) = (arrGo wc i rest).map (fun p => (p.1, evs ++ p.2)) := by
  conv_lhs => unfold arrGo
  dsimp only
  rw [hw]

theorem arrGo_cons_kept (wc : JNode → Nat → Option (Option JNode × Bool × List Ev))
    (i : Nat) (n m : JNode) (rest : List JVal) (b : Bool) (evs : List Ev)
    (hw : wc n i = some (some m, b, evs)) :
    arrGo wc i (JVal.node n :: rest) =
      (arrGo wc (i + 1) rest).map (fun p => (JVal.node m :: p.1, evs ++ p.2)) := by
  conv_lhs => unfold arrGo
  dsimp only
  rw [hw]

theorem arrGo_cons_double (wc : JNode → Nat → Option (Option JNode × Bool × List Ev))
    (i : Nat) (n : JNode) (v : JVal) (rest : List JVal) (evs : List Ev)
    (hw : wc n i = some (none, true, evs)) :
    arrGo wc i (JVal.node n :: v :: rest) =
      (arrGo wc i rest).map (fun p => (p.1, evs ++ p.2)) := by
  conv_lhs => unfold arrGo
  dsimp only
  rw [hw]

/-! ## Claim C2: remove during enter -/

/-- C2: if the enter callback removes node `n` and the leave phase
issues no further directive for `n` (a leave-time replace is claim C3's
resurrection; a leave-time remove is the second-splice behavior of
`leave_remove_after_enter_remove`), the step visits none of `n`'s
children, returns null to the parent's child loop with no extra splice,
and the loop drops `n`'s element and continues at the same index, so the
next sibling is processed exactly once and nothing is skipped. -/
theorem remove_in_enter (h : Handler) (f : CbEnter) (n c : JNode) (k : String) (i : Nat)
    (fuel : Nat)
    (hE : h.enter = some f)
    (hRem : (runCmds (f n (some c) (some k) (some i))).remove = true)
    (hLv : ∀ g, h.leave = some g →
      runLCmds (g n (some c) (some k) (some i)) =
        { remove := false, replacement := none }) :
    ∃ levs, (levs = [] ∨ levs = [Ev.leave n (some k) (some i)]) ∧
      walkNode h (fuel + 1) n (some c) (some k) (some i) =
        some (none, false,
          Ev.scopeEnter n :: Ev.enter n (some k) (some i) :: Ev.scopeLeave n :: levs) ∧
      ∀ rest, walkArr h (fuel + 1) c k i (JVal.node n :: rest) =
        (walkArr h (fuel + 1) c k i rest).map
          (fun p =>
            (p.1, (Ev.scopeEnter n :: Ev.enter n (some k) (some i) :: Ev.scopeLeave n :: levs) ++ p.2)) := by
  have heo := enterPhase_some h f hE n (some c) (some k) (some i)
  have hcur : (enterPhase h n (some c) (some k) (some i)).current = none := by
    rw [heo]
    simp [hRem]
  have hwn := walkNode_no_descend h fuel n (some c) (some k) (some i) (Or.inl hcur)
  cases hg : h.leave with
  | none =>
    have h1 : walkNode h (fuel + 1) n (some c) (some k) (some i) =
        some (none, false,
          Ev.scopeEnter n :: Ev.enter n (some k) (some i) :: Ev.scopeLeave n :: []) := by
      rw [hwn, hcur, leavePhase_none h hg, heo, hRem]
      rfl
    refine ⟨[], Or.inl rfl, h1, ?_⟩
    intro rest
    show arrGo _ i (JVal.node n :: rest) = _
    exact arrGo_cons_removed _ i n rest _ h1
  | some g =>
    have h1 : walkNode h (fuel + 1) n (some c) (some k) (some i) =
        some (none, false,
          Ev.scopeEnter n :: Ev.enter n (some k) (some i) :: Ev.scopeLeave n ::
            [Ev.leave n (some k) (some i)]) := by
      rw [hwn, hcur, leavePhase_some h g hg none n (some c) (some k) (some i),
        hLv g hg, heo, hRem]
      rfl
    refine ⟨[Ev.leave n (some k) (some i)], Or.inr rfl, h1, ?_⟩
    intro rest
    show arrGo _ i (JVal.node n :: rest) = _
    exact arrGo_cons_removed _ i n rest _ h1

/-- Faithfulness of the second splice (not a claim of the spec, but the
behavior the C2 hypotheses exclude): when the enter callback removes `n`
and the leave callback also calls remove(), the leave-time
`this.remove(parent, key, index)` splices the slot again.  The slot then
holds the former next sibling `v`, which vanishes from the array without
ever being visited, and the loop continues at the same index: the array
shrinks by two. -/
theorem leave_remove_after_enter_remove (h : Handler) (f : CbEnter) (g : CbLeave)
    (n c : JNode) (k : String) (i fuel : Nat)
    (hE : h.enter = some f)
    (hRem : (runCmds (f n (some c) (some k) (some i))).remove = true)
    (hL : h.leave = some g)
    (hlrm : (runLCmds (g n (some c) (some k) (some i))).remove = true) :
    walkNode h (fuel + 1) n (some c) (some k) (some i) =
      some (none, true, [Ev.scopeEnter n, Ev.enter n (some k) (some i), Ev.scopeLeave n,
        Ev.leave n (some k) (some i)]) ∧
    ∀ v rest, walkArr h (fuel + 1) c k i (JVal.node n :: v :: rest) =
      (walkArr h (fuel + 1) c k i rest).map
        (fun p => (p.1, [Ev.scopeEnter n, Ev.enter n (some k) (some i), Ev.scopeLeave n,
          Ev.leave n (some k) (some i)] ++ p.2)) := by
  have heo := enterPhase_some h f hE n (some c) (some k) (some i)
  have hcur : (enterPhase h n (some c) (some k) (some i)).current = none := by
    rw [heo]
    simp [hRem]
  have h1 : walkNode h (fuel + 1) n (some c) (some k) (some i) =
      some (none, true, [Ev.scopeEnter n, Ev.enter n (some k) (some i), Ev.scopeLeave n,
        Ev.leave n (some k) (some i)]) := by
    rw [walkNode_no_descend h fuel n (some c) (some k) (some i) (Or.inl hcur), hcur,
      leavePhase_some h g hL none n (some c) (some k) (some i), hlrm, heo, hRem]
    rfl
  refine ⟨h1, ?_⟩
  intro v rest
  show arrGo _ i (JVal.node n :: v :: rest) = _
  exact arrGo_cons_double _ i n v rest _ h1

/-! ## Claim C3: remove during enter, replace during leave -/

/-- C3: if `n` is removed during its own enter and the leave callback
replaces it with `m` (no further removal), the step returns `m`, so the
parent's child loop re-inserts `m` exactly once at `n`'s original index
and continues with the former next sibling at the following index. -/
theorem remove_then_resurrect (h : Handler) (f : CbEnter) (g : CbLeave) (n m c : JNode)
    (k : String) (i fuel : Nat)
    (hE : h.enter = some f)
    (hRem : (runCmds (f n (some c) (some k) (some i))).remove = true)
    (hL : h.leave = some g)
    (hlfl : runLCmds (g n (some c) (some k) (some i)) =
      { remove := false, replacement := some m }) :
    walkNode h (fuel + 1) n (some c) (some k) (some i) =
      some (some m, false, [Ev.scopeEnter n, Ev.enter n (some k) (some i), Ev.scopeLeave n,
        Ev.leave n (some k) (some i)]) ∧
    ∀ rest, walkArr h (fuel + 1) c k i (JVal.node n :: rest) =
      (walkArr h (fuel + 1) c k (i + 1) rest).map
        (fun p => (JVal.node m :: p.1,
          [Ev.scopeEnter n, Ev.enter n (some k) (some i), Ev.scopeLeave n,
            Ev.leave n (some k) (some i)] ++ p.2)) := by
  have heo := enterPhase_some h f hE n (some c) (some k) (some i)
  have hcur : (enterPhase h n (some c) (some k) (some i)).current = none := by
    rw [heo]
    simp [hRem]
  have h1 : walkNode h (fuel + 1) n (some c) (some k) (some i) =
      some (some m, false, [Ev.scopeEnter n, Ev.enter n (some k) (some i), Ev.scopeLeave n,
        Ev.leave n (some k) (some i)]) := by
    rw [walkNode_no_descend h fuel n (some c) (some k) (some i) (Or.inl hcur), hcur,
      leavePhase_some h g hL none n (some c) (some k) (some i), hlfl, heo, hRem]
    rfl
  refine ⟨h1, ?_⟩
  intro rest
  show arrGo _ i (JVal.node n :: rest) = _
  exact arrGo_cons_kept _ i n _ rest _ _ h1

/-! ## Claim C6: skip during enter -/

/-- C6: if the enter callback calls skip() for node `n`, no notification
or callback fires for any descendant of `n` (the step's trace is exactly
the four events about `n` itself), while both the scope-leave
notification and the leave callback still fire for `n`. -/
theorem skip_in_enter (h : Handler) (f : CbEnter) (g : CbLeave) (n : JNode)
    (parent : Option JNode) (key : Option String) (idx : Option Nat) (fuel : Nat)
    (hE : h.enter = some f)
    (hL : h.leave = some g)
    (hskip : (runCmds (f n parent key idx)).skip = true) :
    ∃ final sx, walkNode h (fuel + 1) n parent key idx =
      some (final, sx, [Ev.scopeEnter n, Ev.enter n key idx, Ev.scopeLeave n,
        Ev.leave n key idx]) := by
  have heo := enterPhase_some h f hE n parent key idx
  have hsk : (enterPhase h n parent key idx).skipKids = true := by
    rw [heo]
    exact hskip
  refine ⟨(leavePhase h (enterPhase h n parent key idx).current n parent key idx).1,
    ((enterPhase h n parent key idx).removed &&
      (leavePhase h (enterPhase h n parent key idx).current n parent key idx).2.1), ?_⟩
  rw [walkNode_no_descend h fuel n parent key idx (Or.inr hsk),
    leavePhase_some h g hL (enterPhase h n parent key idx).current n parent key idx, heo]
  rfl

/-! ## Claim C5: replace during enter redirects descent -/

theorem walkFields_def (h : Handler) (fuel : Nat) (c : JNode) (flds : List (String × JVal)) :
    fieldsGo (fun n k i => walkNode h fuel n (some c) k i) flds = walkFields h fuel c flds := rfl

/-- C5: if the enter callback replaces `n` with `m` (no removal, no
skip), the children phase enumerates `m`'s fields rather than `n`'s, the
parent's slot receives the (child-walked) `m`, and the leave callback is
still invoked with the original node `n` at the same `(key, index)`
coordinates. -/
theorem replace_in_enter (h : Handler) (f : CbEnter) (g : CbLeave) (n m c : JNode)
    (k : String) (i fuel : Nat) (flds' : List (String × JVal)) (cevs : List Ev)
    (hE : h.enter = some f)
    (hfl : runCmds (f n (some c) (some k) (some i)) =
      { skip := false, remove := false, replacement := some m })
    (hL : h.leave = some g)
    (hlfl : runLCmds (g n (some c) (some k) (some i)) =
      { remove := false, replacement := none })
    (hkids : walkFields h fuel m m.fields = some (flds', cevs)) :
    walkNode h (fuel + 1) n (some c) (some k) (some i) =
      some (some (JNode.mk m.ty flds'), false,
        Ev.scopeEnter n :: Ev.enter n (some k) (some i) ::
          (cevs ++ Ev.scopeLeave n :: [Ev.leave n (some k) (some i)])) ∧
    ∀ rest, walkArr h (fuel + 1) c k i (JVal.node n :: rest) =
      (walkArr h (fuel + 1) c k (i + 1) rest).map
        (fun p => (JVal.node (JNode.mk m.ty flds') :: p.1,
          (Ev.scopeEnter n :: Ev.enter n (some k) (some i) ::
            (cevs ++ Ev.scopeLeave n :: [Ev.leave n (some k) (some i)])) ++ p.2)) := by
  have h1 : walkNode h (fuel + 1) n (some c) (some k) (some i) =
      some (some (JNode.mk m.ty flds'), false,
        Ev.scopeEnter n :: Ev.enter n (some k) (some i) ::
          (cevs ++ Ev.scopeLeave n :: [Ev.leave n (some k) (some i)])) := by
    simp only [walkNode, enterPhase_some h f hE, hfl]
    simp only [Bool.false_eq_true, if_false, Option.getD_some]
    rw [walkFields_def, hkids]
    simp only [leavePhase_some h g hL, hlfl]
    rfl
  refine ⟨h1, ?_⟩
  intro rest
  show arrGo _ i (JVal.node n :: rest) = _
  exact arrGo_cons_kept _ i n _ rest _ _ h1

/-! ## Claim C4: last replace wins; remove takes precedence -/

/-- The argument of the last `replace()` call in a directive sequence. -/
def lastReplaceArg : List Cmd → Option JNode
  | [] => none
  | Cmd.replace n :: rest =>
    match lastReplaceArg rest with
    | some m => some m
    | none => some n
  | _ :: rest => lastReplaceArg rest

def lastLReplaceArg : List LCmd → Option JNode
  | [] => none
  | LCmd.replace n :: rest =>
    match lastLReplaceArg rest with
    | some m => some m
    | none => some n
  | _ :: rest => lastLReplaceArg rest

def hasRemoveCmd (cs : List Cmd) : Bool :=
  cs.any (fun c => match c with | Cmd.remove => true | _ => false)

def hasLRemoveCmd (cs : List LCmd) : Bool :=
  cs.any (fun c => match c with | LCmd.remove => true | _ => false)

theorem foldl_cmd_replacement :
    ∀ (cs : List Cmd) (fl : Flags),
      (cs.foldl cmdStep fl).replacement =
        match lastReplaceArg cs with
        | some n => some n
        | none => fl.replacement
  | [], _ => rfl
  | Cmd.skip :: rest, fl => by
    rw [List.foldl_cons, foldl_cmd_replacement rest]
    rfl
  | Cmd.remove :: rest, fl => by
    rw [List.foldl_cons, foldl_cmd_replacement rest]
    rfl
  | Cmd.replace n :: rest, fl => by
    rw [List.foldl_cons, foldl_cmd_replacement rest]
    show (match lastReplaceArg rest with
          | some m => some m
          | none => some n) = _
    cases hl : lastReplaceArg rest <;> simp [lastReplaceArg, hl]

theorem foldl_lcmd_replacement :
    ∀ (cs : List LCmd) (fl : LFlags),
      (cs.foldl lcmdStep fl).replacement =
        match lastLReplaceArg cs with
        | some n => some n
        | none => fl.replacement
  | [], _ => rfl
  | LCmd.remove :: rest, fl => by
    rw [List.foldl_cons, foldl_lcmd_replacement rest]
    rfl
  | LCmd.replace n :: rest, fl => by
    rw [List.foldl_cons, foldl_lcmd_replacement rest]
    show (match lastLReplaceArg rest with
          | some m => some m
          | none => some n) = _
    cases hl : lastLReplaceArg rest <;> simp [lastLReplaceArg, hl]

theorem foldl_cmd_remove :
    ∀ (cs : List Cmd) (fl : Flags),
      (cs.foldl cmdStep fl).remove = (fl.remove || hasRemoveCmd cs)
  | [], fl => by simp [hasRemoveCmd]
  | Cmd.skip :: rest, fl => by
    rw [List.foldl_cons, foldl_cmd_remove rest]
    simp [hasRemoveCmd, cmdStep]
  | Cmd.remove :: rest, fl => by
    rw [List.foldl_cons, foldl_cmd_remove rest]
    simp [hasRemoveCmd, cmdStep]
  | Cmd.replace n :: rest, fl => by
    rw [List.foldl_cons, foldl_cmd_remove rest]
    simp [hasRemoveCmd, cmdStep]

theorem foldl_lcmd_remove :
    ∀ (cs : List LCmd) (fl : LFlags),
      (cs.foldl lcmdStep fl).remove = (fl.remove || hasLRemoveCmd cs)
  | [], fl => by simp [hasLRemoveCmd]
  | LCmd.remove :: rest, fl => by
    rw [List.foldl_cons, foldl_lcmd_remove rest]
    simp [hasLRemoveCmd, lcmdStep]
  | LCmd.replace n :: rest, fl => by
    rw [List.foldl_cons, foldl_lcmd_remove rest]
    simp [hasLRemoveCmd, lcmdStep]

theorem runCmds_replacement (cs : List Cmd) : (runCmds cs).replacement = lastReplaceArg cs := by
  rw [runCmds, foldl_cmd_replacement]
  cases hl : lastReplaceArg cs <;> rfl

theorem runLCmds_replacement (cs : List LCmd) :
    (runLCmds cs).replacement = lastLReplaceArg cs := by
  rw [runLCmds, foldl_lcmd_replacement]
  cases hl : lastLReplaceArg cs <;> rfl

theorem runCmds_remove (cs : List Cmd) : (runCmds cs).remove = hasRemoveCmd cs := by
  rw [runCmds, foldl_cmd_remove]
  rfl

theorem runLCmds_remove (cs : List LCmd) : (runLCmds cs).remove = hasLRemoveCmd cs := by
  rw [runLCmds, foldl_lcmd_remove]
  rfl

/-- C4: within one callback invocation the pending replacement is the
argument of the last replace() call; and when remove() was also called
in that same phase, the phase does not install the replacement — the
continuation slot is vacated (enter) or the step returns null (leave)
instead. -/
theorem replace_last_wins_remove_precedence (cs : List Cmd) (ls : List LCmd)
    (h : Handler) (f : CbEnter) (g : CbLeave) (input : JNode) (parent : Option JNode)
    (key : Option String) (idx : Option Nat) (cur : Option JNode) :
    (runCmds cs).replacement = lastReplaceArg cs ∧
    (runLCmds ls).replacement = lastLReplaceArg ls ∧
    (runCmds cs).remove = hasRemoveCmd cs ∧
    (h.enter = some f → hasRemoveCmd (f input parent key idx) = true →
      (enterPhase h input parent key idx).current = none ∧
      (enterPhase h input parent key idx).removed = true) ∧
    (h.leave = some g → hasLRemoveCmd (g input parent key idx) = true →
      (leavePhase h cur input parent key idx).1 = none) := by
  refine ⟨runCmds_replacement cs, runLCmds_replacement ls, runCmds_remove cs, ?_, ?_⟩
  · intro hE hR
    have hrem : (runCmds (f input parent key idx)).remove = true := by
      rw [runCmds_remove]
      exact hR
    rw [enterPhase_some h f hE]
    simp [hrem]
  · intro hL hR
    have hrem : (runLCmds (g input parent key idx)).remove = true := by
      rw [runLCmds_remove]
      exact hR
    rw [leavePhase_some h g hL]
    simp [hrem]

/-! ## Walker witnesses at concrete inputs -/

def nWalk : JNode := JNode.mk "Leaf" [("deep", JVal.node (JNode.mk "Inner" []))]

def cWalk : JNode := JNode.mk "Parent" []

def mWalk : JNode := JNode.mk "New" [("x", JVal.prim 3)]

def fRemove : CbEnter := fun _ _ _ _ => [Cmd.remove]

def hRemOnly : Handler := { enter := some fRemove, leave := none }

/-- C2 witness. -/
theorem remove_in_enter_witness :
    ∃ levs, (levs = [] ∨ levs = [Ev.leave nWalk (some "body") (some 0)]) ∧
      walkNode hRemOnly 1 nWalk (some cWalk) (some "body") (some 0) =
        some (none, false, Ev.scopeEnter nWalk :: Ev.enter nWalk (some "body") (some 0) ::
          Ev.scopeLeave nWalk :: levs) ∧
      ∀ rest, walkArr hRemOnly 1 cWalk "body" 0 (JVal.node nWalk :: rest) =
        (walkArr hRemOnly 1 cWalk "body" 0 rest).map
          (fun p => ((p.1 : List JVal),
            (Ev.scopeEnter nWalk :: Ev.enter nWalk (some "body") (some 0) ::
              Ev.scopeLeave nWalk :: levs) ++ p.2)) :=
  remove_in_enter hRemOnly fRemove nWalk cWalk "body" 0 0 rfl rfl
    (fun _ hg => Option.noConfusion hg)

def gResurrect : CbLeave := fun _ _ _ _ => [LCmd.replace mWalk]

def hResurrect : Handler := { enter := some fRemove, leave := some gResurrect }

/-- C3 witness. -/
theorem remove_then_resurrect_witness :
    walkNode hResurrect 1 nWalk (some cWalk) (some "body") (some 0) =
      some (some mWalk, false, [Ev.scopeEnter nWalk, Ev.enter nWalk (some "body") (some 0),
        Ev.scopeLeave nWalk, Ev.leave nWalk (some "body") (some 0)]) ∧
    ∀ rest, walkArr hResurrect 1 cWalk "body" 0 (JVal.node nWalk :: rest) =
      (walkArr hResurrect 1 cWalk "body" 1 rest).map
        (fun p => (JVal.node mWalk :: p.1,
          [Ev.scopeEnter nWalk, Ev.enter nWalk (some "body") (some 0),
            Ev.scopeLeave nWalk, Ev.leave nWalk (some "body") (some 0)] ++ p.2)) :=
  remove_then_resurrect hResurrect fRemove gResurrect nWalk mWalk cWalk "body" 0 0
    rfl rfl rfl rfl

def fReplace : CbEnter := fun _ _ _ _ => [Cmd.replace mWalk]

def gNothing : CbLeave := fun _ _ _ _ => []

def hReplace : Handler := { enter := some fReplace, leave := some gNothing }

/-- C5 witness: the children phase walks the replacement's fields (a
single primitive field, so no child events), the leave event carries the
original node. -/
theorem replace_in_enter_witness :
    walkNode hReplace 1 nWalk (some cWalk) (some "body") (some 0) =
      some (some (JNode.mk mWalk.ty [("x", JVal.prim 3)]), false,
        Ev.scopeEnter nWalk :: Ev.enter nWalk (some "body") (some 0) ::
          (([] : List Ev) ++ Ev.scopeLeave nWalk :: [Ev.leave nWalk (some "body") (some 0)])) ∧
    ∀ rest, walkArr hReplace 1 cWalk "body" 0 (JVal.node nWalk :: rest) =
      (walkArr hReplace 1 cWalk "body" 1 rest).map
        (fun p => (JVal.node (JNode.mk mWalk.ty [("x", JVal.prim 3)]) :: p.1,
          (Ev.scopeEnter nWalk :: Ev.enter nWalk (some "body") (some 0) ::
            (([] : List Ev) ++ Ev.scopeLeave nWalk ::
              [Ev.leave nWalk (some "body") (some 0)])) ++ p.2)) :=
  replace_in_enter hReplace fReplace gNothing nWalk mWalk cWalk "body" 0 0
    [("x", JVal.prim 3)] [] rfl rfl rfl rfl rfl

def fSkip : CbEnter := fun _ _ _ _ => [Cmd.skip]

def hSkip : Handler := { enter := some fSkip, leave := some gNothing }

/-- C6 witness: `nWalk` has a child node, yet the trace holds only the
four events about `nWalk` itself. -/
theorem skip_in_enter_witness :
    ∃ final sx, walkNode hSkip 1 nWalk (some cWalk) (some "body") (some 0) =
      some (final, sx, [Ev.scopeEnter nWalk, Ev.enter nWalk (some "body") (some 0),
        Ev.scopeLeave nWalk, Ev.leave nWalk (some "body") (some 0)]) :=
  skip_in_enter hSkip fSkip gNothing nWalk (some cWalk) (some "body") (some 0) 0
    rfl rfl rfl

def mWalk2 : JNode := JNode.mk "Second" []

def csW4 : List Cmd := [Cmd.replace mWalk, Cmd.replace mWalk2, Cmd.remove]

def lsW4 : List LCmd := [LCmd.replace mWalk, LCmd.replace mWalk2]

def fW4 : CbEnter := fun _ _ _ _ => csW4

def gW4 : CbLeave := fun _ _ _ _ => [LCmd.remove, LCmd.replace mWalk]

def hW4 : Handler := { enter := some fW4, leave := some gW4 }

/-- C4 witness: three directives in one enter phase keep only the last
replacement, and the removal wins over it. -/
theorem replace_last_wins_witness :
    (runCmds csW4).replacement = lastReplaceArg csW4 ∧
    (runLCmds lsW4).replacement = lastLReplaceArg lsW4 ∧
    (runCmds csW4).remove = hasRemoveCmd csW4 ∧
    ((enterPhase hW4 nWalk (some cWalk) (some "k") (some 0)).current = none ∧
      (enterPhase hW4 nWalk (some cWalk) (some "k") (some 0)).removed = true) ∧
    (leavePhase hW4 (some nWalk) nWalk (some cWalk) (some "k") (some 0)).1 = none := by
  have hh := replace_last_wins_remove_precedence csW4 lsW4 hW4 fW4 gW4 nWalk
    (some cWalk) (some "k") (some 0) (some nWalk)
  exact ⟨hh.1, hh.2.1, hh.2.2.1, hh.2.2.2.1 rfl rfl, hh.2.2.2.2 rfl rfl⟩

/-! ## Claim C9: language inference of parseAndWalk (walk.ts)

`LANG_RE` is `(?<=\.[cm]?)(?<lang>jsx|tsx|js|ts)$`: one of the four
suffixes at the very end of the filename, with a lookbehind requiring a
dot, optionally followed by a single 'c' or 'm', right before it.  The
match is anchored at the string end, so it is a suffix test; it is
embedded here as a check on the reversed character list.
-/

inductive Lang where
  | jsx
  | tsx
  | js
  | ts
deriving DecidableEq

def langChars : Lang → List Char
  | .jsx => ['j', 's', 'x']
  | .tsx => ['t', 's', 'x']
  | .js => ['j', 's']
  | .ts => ['t', 's']

/-- Boolean prefix test on character lists. -/
def pfx : List Char → List Char → Bool
  | [], _ => true
  | _ :: _, [] => false
  | a :: as, b :: bs => a == b && pfx as bs

/-- The reversed lookbehind `\.[cm]?`: the reversed remainder starts
with '.', or with 'c' or 'm' followed by '.'. -/
def lbRev (rest : List Char) : Bool :=
  pfx ['.'] rest || pfx ['c', '.'] rest || pfx ['m', '.'] rest

/-- The regex alternation in source order (jsx, tsx, js, ts), applied to
the reversed filename. -/
def langOfRev (r : List Char) : Option Lang :=
  if pfx ['x', 's', 'j'] r && lbRev (r.drop 3) then some .jsx
  else if pfx ['x', 's', 't'] r && lbRev (r.drop 3) then some .tsx
  else if pfx ['s', 'j'] r && lbRev (r.drop 2) then some .js
  else if pfx ['s', 't'] r && lbRev (r.drop 2) then some .ts
  else none

/-- The source's `sourceFilename.match(LANG_RE)?.groups?.lang`. -/
def inferLang (s : List Char) : Option Lang := langOfRev s.reverse

/-- The claim's reading: the filename ends with '.', an optional single
'c' or 'm' marker, and the suffix, at the very end of the string. -/
def specInfers (s : List Char) (lang : Lang) : Prop :=
  ∃ pre marker, (marker = [] ∨ marker = ['c'] ∨ marker = ['m']) ∧
    s = pre ++ '.' :: (marker ++ langChars lang)

/-- The caller-supplied `parseOptions` object: each field is present or
absent. -/
structure UserParserOptions where
  sourceType : Option String
  lang : Option Lang

/-- The spread `{ sourceType: 'module', lang, ..._parseOptions }`: the
user object overrides the defaults field by field. -/
def spreadOptions (base user : UserParserOptions) : UserParserOptions :=
  { sourceType := match user.sourceType with
      | some v => some v
      | none => base.sourceType
    lang := match user.lang with
      | some v => some v
      | none => base.lang }

def buildParseOptions (filename : List Char) (user : UserParserOptions) : UserParserOptions :=
  spreadOptions { sourceType := some "module", lang := inferLang filename } user

theorem pfx_iff : ∀ (p l : List Char), pfx p l = true ↔ ∃ t, l = p ++ t
  | [], l => by simp [pfx]
  | a :: as, [] => by
    simp only [pfx, List.cons_append]
    constructor
    · intro hf
      exact absurd hf (by simp)
    · rintro ⟨t, ht⟩
      exact absurd ht (by simp)
  | a :: as, b :: bs => by
    simp only [pfx, Bool.and_eq_true, beq_iff_eq]
    constructor
    · rintro ⟨rfl, h⟩
      obtain ⟨t, rfl⟩ := (pfx_iff as bs).1 h
      exact ⟨t, rfl⟩
    · rintro ⟨t, ht⟩
      rw [List.cons_append] at ht
      injection ht with h1 h2
      exact ⟨h1.symm, (pfx_iff as bs).2 ⟨t, h2⟩⟩

theorem lbRev_iff (t : List Char) :
    lbRev t = true ↔ ∃ marker u, (marker = [] ∨ marker = ['c'] ∨ marker = ['m']) ∧
      t = marker ++ '.' :: u := by
  unfold lbRev
  rw [Bool.or_eq_true, Bool.or_eq_true]
  constructor
  · rintro ((hp | hp) | hp)
    · obtain ⟨u, hu⟩ := (pfx_iff _ _).1 hp
      exact ⟨[], u, Or.inl rfl, by simpa using hu⟩
    · obtain ⟨u, hu⟩ := (pfx_iff _ _).1 hp
      exact ⟨['c'], u, Or.inr (Or.inl rfl), by simpa using hu⟩
    · obtain ⟨u, hu⟩ := (pfx_iff _ _).1 hp
      exact ⟨['m'], u, Or.inr (Or.inr rfl), by simpa using hu⟩
  · rintro ⟨marker, u, (rfl | rfl | rfl), rfl⟩
    · exact Or.inl (Or.inl ((pfx_iff _ _).2 ⟨u, rfl⟩))
    · exact Or.inl (Or.inr ((pfx_iff _ _).2 ⟨u, rfl⟩))
    · exact Or.inr ((pfx_iff _ _).2 ⟨u, rfl⟩)

theorem revSuffix_decomp (s pat t : List Char) (ht : s.reverse = pat ++ t) :
    s = t.reverse ++ pat.reverse := by
  have h := congrArg List.reverse ht
  rw [List.reverse_reverse, List.reverse_append] at h
  exact h

theorem specInfers_of_inferLang (s : List Char) (lang : Lang)
    (h : inferLang s = some lang) : specInfers s lang := by
  unfold inferLang langOfRev at h
  split_ifs at h with h1 h2 h3 h4
  · injection h with h'
    subst h'
    rw [Bool.and_eq_true] at h1
    obtain ⟨t, ht⟩ := (pfx_iff _ _).1 h1.1
    have hb := h1.2
    rw [show s.reverse.drop 3 = t from by rw [ht]; rfl] at hb
    obtain ⟨marker, u, hm, rfl⟩ := (lbRev_iff t).1 hb
    have hs := revSuffix_decomp s _ _ ht
    refine ⟨u.reverse, marker, hm, ?_⟩
    rw [hs]
    rcases hm with rfl | rfl | rfl <;> simp [langChars]
  · injection h with h'
    subst h'
    rw [Bool.and_eq_true] at h2
    obtain ⟨t, ht⟩ := (pfx_iff _ _).1 h2.1
    have hb := h2.2
    rw [show s.reverse.drop 3 = t from by rw [ht]; rfl] at hb
    obtain ⟨marker, u, hm, rfl⟩ := (lbRev_iff t).1 hb
    have hs := revSuffix_decomp s _ _ ht
    refine ⟨u.reverse, marker, hm, ?_⟩
    rw [hs]
    rcases hm with rfl | rfl | rfl <;> simp [langChars]
  · injection h with h'
    subst h'
    rw [Bool.and_eq_true] at h3
    obtain ⟨t, ht⟩ := (pfx_iff _ _).1 h3.1
    have hb := h3.2
    rw [show s.reverse.drop 2 = t from by rw [ht]; rfl] at hb
    obtain ⟨marker, u, hm, rfl⟩ := (lbRev_iff t).1 hb
    have hs := revSuffix_decomp s _ _ ht
    refine ⟨u.reverse, marker, hm, ?_⟩
    rw [hs]
    rcases hm with rfl | rfl | rfl <;> simp [langChars]
  · injection h with h'
    subst h'
    rw [Bool.and_eq_true] at h4
    obtain ⟨t, ht⟩ := (pfx_iff _ _).1 h4.1
    have hb := h4.2
    rw [show s.reverse.drop 2 = t from by rw [ht]; rfl] at hb
    obtain ⟨marker, u, hm, rfl⟩ := (lbRev_iff t).1 hb
    have hs := revSuffix_decomp s _ _ ht
    refine ⟨u.reverse, marker, hm, ?_⟩
    rw [hs]
    rcases hm with rfl | rfl | rfl <;> simp [langChars]

theorem inferLang_some_of (s : List Char) (lang : Lang) (pre marker : List Char)
    (hm : marker = [] ∨ marker = ['c'] ∨ marker = ['m'])
    (hs : s = pre ++ '.' :: (marker ++ langChars lang)) :
    inferLang s = some lang := by
  subst hs
  rcases hm with rfl | rfl | rfl <;> cases lang
  · show langOfRev (pre ++ '.' :: (([] : List Char) ++ langChars Lang.jsx)).reverse = some Lang.jsx
    rw [show (pre ++ '.' :: (([] : List Char) ++ langChars Lang.jsx)).reverse =
      'x' :: 's' :: 'j' :: '.' :: pre.reverse from by simp [langChars]]
    rfl
  · show langOfRev (pre ++ '.' :: (([] : List Char) ++ langChars Lang.tsx)).reverse = some Lang.tsx
    rw [show (pre ++ '.' :: (([] : List Char) ++ langChars Lang.tsx)).reverse =
      'x' :: 's' :: 't' :: '.' :: pre.reverse from by simp [langChars]]
    rfl
  · show langOfRev (pre ++ '.' :: (([] : List Char) ++ langChars Lang.js)).reverse = some Lang.js
    rw [show (pre ++ '.' :: (([] : List Char) ++ langChars Lang.js)).reverse =
      's' :: 'j' :: '.' :: pre.reverse from by simp [langChars]]
    rfl
  · show langOfRev (pre ++ '.' :: (([] : List Char) ++ langChars Lang.ts)).reverse = some Lang.ts
    rw [show (pre ++ '.' :: (([] : List Char) ++ langChars Lang.ts)).reverse =
      's' :: 't' :: '.' :: pre.reverse from by simp [langChars]]
    rfl
  · show langOfRev (pre ++ '.' :: (['c'] ++ langChars Lang.jsx)).reverse = some Lang.jsx
    rw [show (pre ++ '.' :: (['c'] ++ langChars Lang.jsx)).reverse =
      'x' :: 's' :: 'j' :: 'c' :: '.' :: pre.reverse from by simp [langChars]]
    rfl
  · show langOfRev (pre ++ '.' :: (['c'] ++ langChars Lang.tsx)).reverse = some Lang.tsx
    rw [show (pre ++ '.' :: (['c'] ++ langChars Lang.tsx)).reverse =
      'x' :: 's' :: 't' :: 'c' :: '.' :: pre.reverse from by simp [langChars]]
    rfl
  · show langOfRev (pre ++ '.' :: (['c'] ++ langChars Lang.js)).reverse = some Lang.js
    rw [show (pre ++ '.' :: (['c'] ++ langChars Lang.js)).reverse =
      's' :: 'j' :: 'c' :: '.' :: pre.reverse from by simp [langChars]]
    rfl
  · show langOfRev (pre ++ '.' :: (['c'] ++ langChars Lang.ts)).reverse = some Lang.ts
    rw [show (pre ++ '.' :: (['c'] ++ langChars Lang.ts)).reverse =
      's' :: 't' :: 'c' :: '.' :: pre.reverse from by simp [langChars]]
    rfl
  · show langOfRev (pre ++ '.' :: (['m'] ++ langChars Lang.jsx)).reverse = some Lang.jsx
    rw [show (pre ++ '.' :: (['m'] ++ langChars Lang.jsx)).reverse =
      'x' :: 's' :: 'j' :: 'm' :: '.' :: pre.reverse from by simp [langChars]]
    rfl
  · show langOfRev (pre ++ '.' :: (['m'] ++ langChars Lang.tsx)).reverse = some Lang.tsx
    rw [show (pre ++ '.' :: (['m'] ++ langChars Lang.tsx)).reverse =
      'x' :: 's' :: 't' :: 'm' :: '.' :: pre.reverse from by simp [langChars]]
    rfl
  · show langOfRev (pre ++ '.' :: (['m'] ++ langChars Lang.js)).reverse = some Lang.js
    rw [show (pre ++ '.' :: (['m'] ++ langChars Lang.js)).reverse =
      's' :: 'j' :: 'm' :: '.' :: pre.reverse from by simp [langChars]]
    rfl
  · show langOfRev (pre ++ '.' :: (['m'] ++ langChars Lang.ts)).reverse = some Lang.ts
    rw [show (pre ++ '.' :: (['m'] ++ langChars Lang.ts)).reverse =
      's' :: 't' :: 'm' :: '.' :: pre.reverse from by simp [langChars]]
    rfl

/-- C9: the language is inferred exactly for filenames ending in '.',
an optional single 'c' or 'm', and one of the four suffixes at the very
end; an explicitly supplied `parseOptions.lang` overrides the inferred
value and `sourceType` defaults to 'module'. -/
theorem lang_inference (s : List Char) (lang : Lang) (user : UserParserOptions) :
    (inferLang s = some lang ↔ specInfers s lang) ∧
    (∀ l, user.lang = some l → (buildParseOptions s user).lang = some l) ∧
    (user.lang = none → (buildParseOptions s user).lang = inferLang s) ∧
    (user.sourceType = none → (buildParseOptions s user).sourceType = some "module") := by
  refine ⟨⟨specInfers_of_inferLang s lang, ?_⟩, ?_, ?_, ?_⟩
  · rintro ⟨pre, marker, hm, hs⟩
    exact inferLang_some_of s lang pre marker hm hs
  · intro l hl
    show (spreadOptions _ user).lang = some l
    unfold spreadOptions
    rw [hl]
  · intro hl
    show (spreadOptions _ user).lang = inferLang s
    unfold spreadOptions
    rw [hl]
  · intro hst
    show (spreadOptions _ user).sourceType = some "module"
    unfold spreadOptions
    rw [hst]

/-- C9 witness: "a.cts" infers ts, sourceType defaults, and an explicit
lang wins over the inference. -/
theorem lang_inference_witness :
    inferLang ("a.cts".toList) = some Lang.ts ∧
    (buildParseOptions ("a.cts".toList)
      { sourceType := none, lang := none }).lang = inferLang ("a.cts".toList) ∧
    (buildParseOptions ("a.cts".toList)
      { sourceType := none, lang := none }).sourceType = some "module" ∧
    (buildParseOptions ("a.cts".toList)
      { sourceType := none, lang := some Lang.tsx }).lang = some Lang.tsx := by
  have h1 := lang_inference ("a.cts".toList) Lang.ts { sourceType := none, lang := none }
  have h2 := lang_inference ("a.cts".toList) Lang.tsx { sourceType := none, lang := some Lang.tsx }
  exact ⟨h1.1.2 ⟨"a".toList, ['c'], Or.inr (Or.inl rfl), by decide⟩,
    h1.2.2.1 rfl, h1.2.2.2 rfl, h2.2.1 Lang.tsx rfl⟩

end OxcWalker
